import Mathlib

/-!
Verification of the Connect-4 game-tree search core (`src/main.cpp`).

The board is a 6×7 grid of characters (`' '` empty, `'X'` player, `'O'` AI),
modelled as a list of rows.  All core functions of the C++ source are
translated one-to-one: `getNextOpenRow`, `checkWin`, `dropPiece`,
`evaluateWindow`, `evaluateBoard`, `countThreats`, `getOptimizedMoves`,
`getAdaptiveDepth` and `minimax`.  The in-place board mutation of the search
(speculative place / recurse / undo) is made explicit by threading the board
through every function that mutates it; the transposition cache
(`unordered_map<string, pair<int,int>> memo`) is an association list threaded
the same way.  `std::sort` on the (at most 7) scored moves is modelled as the
insertion sort that libstdc++ performs on ranges below its 16-element
threshold, i.e. a stable left-to-right insertion with the strict comparator
`a.second > b.second`.
-/

namespace Connect4

def ROWS : Nat := 6
def COLS : Nat := 7
def MAX_MEMORY_SIZE : Nat := 2000000

/-- The game board: rows of cells, row 0 on top, row `ROWS-1` at the bottom. -/
abbrev Board := List (List Char)

/-- Read cell `b[r][c]`; out-of-range reads yield `' '`. -/
def getCell (b : Board) (r c : Nat) : Char := (b.getD r []).getD c ' '

/-- Write cell `b[r][c] = v` (no-op out of range, like `List.set`). -/
def setCell (b : Board) (r c : Nat) (v : Char) : Board :=
  b.set r ((b.getD r []).set c v)

/-- `initBoard`: the all-blank board. -/
def initBoard : Board := List.replicate ROWS (List.replicate COLS ' ')

/-- `getBoardHash`: concatenation of all 42 cells in row-major order. -/
def getBoardHash (b : Board) : String :=
  String.mk (((List.range ROWS).map fun r =>
    (List.range COLS).map fun c => getCell b r c).flatten)

/-- `getNextOpenRow`: scan rows from the bottom (`r = ROWS-1`) upwards and
return the first empty one, `none` when the column is full.  The loop
`for (r = ROWS-1; r >= 0; r--)` is unrolled over its six fixed iterations. -/
def getNextOpenRow (b : Board) (col : Nat) : Option Nat :=
  if getCell b 5 col = ' ' then some 5
  else if getCell b 4 col = ' ' then some 4
  else if getCell b 3 col = ' ' then some 3
  else if getCell b 2 col = ' ' then some 2
  else if getCell b 1 col = ' ' then some 1
  else if getCell b 0 col = ' ' then some 0
  else none

/-- `checkWin`: four consecutive cells of `p` horizontally, vertically or on
either diagonal. -/
def checkWin (b : Board) (p : Char) : Bool :=
  ((List.range ROWS).any fun r => (List.range (COLS - 3)).any fun c =>
    getCell b r c == p && getCell b r (c+1) == p &&
    getCell b r (c+2) == p && getCell b r (c+3) == p) ||
  ((List.range (ROWS - 3)).any fun r => (List.range COLS).any fun c =>
    getCell b r c == p && getCell b (r+1) c == p &&
    getCell b (r+2) c == p && getCell b (r+3) c == p) ||
  ((List.range (ROWS - 3)).any fun r => (List.range (COLS - 3)).any fun c =>
    getCell b r c == p && getCell b (r+1) (c+1) == p &&
    getCell b (r+2) (c+2) == p && getCell b (r+3) (c+3) == p) ||
  ((List.range (ROWS - 3)).any fun r => (List.range (COLS - 3)).any fun cm =>
    let c := cm + 3
    getCell b r c == p && getCell b (r+1) (c-1) == p &&
    getCell b (r+2) (c-2) == p && getCell b (r+3) (c-3) == p)

/-- `dropPiece`: place `player` on the lowest open row of `col`; returns
whether the move succeeded together with the updated board. -/
def dropPiece (b : Board) (col : Nat) (player : Char) : Bool × Board :=
  match getNextOpenRow b col with
  | some row => (true, setCell b row col player)
  | none => (false, b)

/-- `evaluateWindow(c1,c2,c3,c4,piece)`: the signed pattern score of one
4-cell window, translated literally from the source. -/
def evaluateWindow (c1 c2 c3 c4 piece : Char) : Int :=
  let countPiece : Nat := (if c1 = piece then 1 else 0) + (if c2 = piece then 1 else 0)
    + (if c3 = piece then 1 else 0) + (if c4 = piece then 1 else 0)
  let countEmpty : Nat := (if c1 = ' ' then 1 else 0) + (if c2 = ' ' then 1 else 0)
    + (if c3 = ' ' then 1 else 0) + (if c4 = ' ' then 1 else 0)
  let countOpp : Nat := 4 - countPiece - countEmpty
  if countPiece = 4 then 1000000
  else
    let offense : Int :=
      if countPiece = 3 ∧ countEmpty = 1 then
        if c1 = ' ' ∧ c4 = ' ' then 5000 else 150
      else if countPiece = 2 ∧ countEmpty = 2 then
        if (c1 = piece ∧ c2 = piece) ∨ (c2 = piece ∧ c3 = piece) ∨
           (c3 = piece ∧ c4 = piece) then 50 else 60
      else 0
    let defense : Int :=
      if countOpp = 3 ∧ countEmpty = 1 then
        if c1 = ' ' ∧ c4 = ' ' then -10000 else -500
      else if countOpp = 2 ∧ countEmpty = 2 then -50
      else 0
    offense + defense

/-- The window sums of `evaluateBoard`: every horizontal, vertical and
both-diagonal 4-cell window. -/
def windowTotal (b : Board) (piece : Char) : Int :=
  (((List.range ROWS).map fun r => ((List.range (COLS - 3)).map fun c =>
    evaluateWindow (getCell b r c) (getCell b r (c+1)) (getCell b r (c+2))
      (getCell b r (c+3)) piece).sum).sum) +
  (((List.range COLS).map fun c => ((List.range (ROWS - 3)).map fun r =>
    evaluateWindow (getCell b r c) (getCell b (r+1) c) (getCell b (r+2) c)
      (getCell b (r+3) c) piece).sum).sum) +
  (((List.range (ROWS - 3)).map fun r => ((List.range (COLS - 3)).map fun c =>
    evaluateWindow (getCell b r c) (getCell b (r+1) (c+1)) (getCell b (r+2) (c+2))
      (getCell b (r+3) (c+3)) piece).sum).sum) +
  (((List.range (ROWS - 3)).map fun r => ((List.range (COLS - 3)).map fun cm =>
    let c := cm + 3
    evaluateWindow (getCell b r c) (getCell b (r+1) (c-1)) (getCell b (r+2) (c-2))
      (getCell b (r+3) (c-3)) piece).sum).sum)

/-- The centre-control bonus loop of `evaluateBoard`: per row, `+200` when the
centre cell holds `piece` and `+100` when the cell left **or** right of
centre holds `piece` (a single `+100`, even when both do). -/
def centerScore (b : Board) (piece : Char) : Int :=
  ((List.range ROWS).map fun r =>
    (if getCell b r (COLS / 2) = piece then (200 : Int) else 0) +
    (if getCell b r (COLS / 2 - 1) = piece ∨ getCell b r (COLS / 2 + 1) = piece
      then (100 : Int) else 0)).sum

/-- `evaluateBoard(b, piece)`: centre-control bonuses plus all window scores. -/
def evaluateBoard (b : Board) (piece : Char) : Int :=
  centerScore b piece + windowTotal b piece

/-- Number of blank cells of the 6×7 grid. -/
def countEmptyCells (b : Board) : Nat :=
  ((List.range ROWS).map fun r =>
    (List.range COLS).countP fun c => getCell b r c == ' ').sum

/-- Number of occupied cells of the 6×7 grid (the `moves_played` count). -/
def movesPlayed (b : Board) : Nat :=
  ((List.range ROWS).map fun r =>
    (List.range COLS).countP fun c => getCell b r c != ' ').sum

/-- The body of the `countThreats` column loop: speculatively drop `piece`,
count a threat when it wins, undo. -/
def countThreatsStep (piece : Char) (st : Nat × Board) (col : Nat) : Nat × Board :=
  match getNextOpenRow st.2 col with
  | none => st
  | some row =>
    let b1 := setCell st.2 row col piece
    let t := if checkWin b1 piece then st.1 + 1 else st.1
    (t, setCell b1 row col ' ')

/-- `countThreats(b, piece)`: for every non-full column, speculatively drop
`piece`, count a threat when it wins, and undo.  The board is threaded to
make the in-place mutation explicit; it is restored on exit. -/
def countThreats (b : Board) (piece : Char) : Nat × Board :=
  (List.range COLS).foldl (countThreatsStep piece) (0, b)

def evaluateMoveSimple (b : Board) (piece : Char) : Int := evaluateBoard b piece

/-- One step of `std::sort`'s small-range insertion sort with the comparator
`a.second > b.second`: the new element moves left past strictly smaller
scores and stops at the first score `≥` its own (stable for ties). -/
def insertMove (x : Nat × Int) : List (Nat × Int) → List (Nat × Int)
  | [] => [x]
  | y :: ys => if x.2 > y.2 then x :: y :: ys else y :: insertMove x ys

/-- The sort `getOptimizedMoves` performs on its (at most 7) scored moves:
libstdc++'s `std::sort` runs a plain insertion sort on ranges below its
16-element threshold. -/
def sortMoves (l : List (Nat × Int)) : List (Nat × Int) :=
  l.foldl (fun acc x => insertMove x acc) []

/-- The body of the `getOptimizedMoves` column loop: speculatively drop
`piece`, score the position (or 1,000,000 on an immediate win), undo, add
the centrality and stacking bonuses, and append the scored column. -/
def movesStep (piece : Char) (st : List (Nat × Int) × Board) (col : Nat) :
    List (Nat × Int) × Board :=
  match getNextOpenRow st.2 col with
  | none => st
  | some row =>
    let b1 := setCell st.2 row col piece
    let score0 : Int := if checkWin b1 piece then 1000000
      else evaluateMoveSimple b1 piece
    let b2 := setCell b1 row col ' '
    let score1 := score0 + (30 - (((col : Int) - 3).natAbs : Int) * 10)
    let score2 := score1 +
      (if row < ROWS - 1 ∧ getCell b2 (row + 1) col = piece then 40 else 0)
    (st.1 ++ [(col, score2)], b2)

/-- `getOptimizedMoves(b, maximizingPlayer)`: score every legal column
(speculative drop, win-check or `evaluateMoveSimple`, undo, centrality and
stacking bonuses) and return the columns sorted by descending score.  The
board is threaded and restored. -/
def getOptimizedMoves (b : Board) (maximizingPlayer : Bool) : List Nat × Board :=
  let piece := if maximizingPlayer then 'O' else 'X'
  let st := (List.range COLS).foldl (movesStep piece) ([], b)
  ((sortMoves st.1).map Prod.fst, st.2)

/-- `getAdaptiveDepth(b, base_depth)`: threat count first, then game phase. -/
def getAdaptiveDepth (b : Board) (base_depth : Int) : Int :=
  let p := countThreats b 'O'
  let q := countThreats p.2 'X'
  let threats := p.1 + q.1
  if threats ≥ 2 then base_depth + 2
  else if threats = 1 then base_depth + 1
  else
    let moves_played := movesPlayed q.2
    if moves_played < 8 then max 3 (base_depth - 1)
    else if moves_played > 30 then base_depth + 1
    else base_depth

/-- The transposition cache `unordered_map<string, pair<int,int>>`, as an
association list with distinct keys. -/
abbrev Memo := List (String × (Int × Int))

/-- `memo.find(key)`. -/
def memoFind (k : String) : Memo → Option (Int × Int)
  | [] => none
  | (k', v) :: t => if k' = k then some v else memoFind k t

/-- `memo[key] = v`: overwrite the entry when the key is present, append a
new entry otherwise. -/
def memoInsert (k : String) (v : Int × Int) : Memo → Memo
  | [] => [(k, v)]
  | (k', v') :: t => if k' = k then (k, v) :: t else (k', v') :: memoInsert k v t

def INT_MIN : Int := -2147483648
def INT_MAX : Int := 2147483647

/-- The cache key: board hash ++ `to_string(depth)` ++ side-to-move marker.
Neither alpha/beta, nor `isScoreAttack`, nor `original_depth` are part of it. -/
def mkKey (b : Board) (depth : Int) (maximizingPlayer : Bool) : String :=
  getBoardHash b ++ toString depth ++ (if maximizingPlayer then "T" else "F")

/-- Lines 343–344 of the source: store the computed value when the cache is
strictly below the ceiling, otherwise discard the entire cache. -/
def storeOrClear (k : String) (v : Int × Int) (m : Memo) : Memo :=
  if m.length < MAX_MEMORY_SIZE then memoInsert k v m else []

/-- The maximizing move loop of `minimax` (lines 308–326 plus the final cache
update of lines 343–346).  `f` is the recursive call at one ply deeper,
taking the current alpha, board and cache.  The root-level forced-win cutoff
(lines 318–321) stores into the cache *unconditionally* and returns. -/
def maxLoop (f : Int → Board → Memo → (Int × Int) × Board × Memo) (key : String)
    (atRoot : Bool) (beta : Int) :
    List Nat → Int × Int → Int → Board → Memo → (Int × Int) × Board × Memo
  | [], best, _, b, m => (best, b, storeOrClear key best m)
  | col :: rest, best, alpha, b, m =>
    match getNextOpenRow b col with
    | none => maxLoop f key atRoot beta rest best alpha b m
    | some row =>
      let b1 := setCell b row col 'O'
      let r := f alpha b1 m
      let b3 := setCell r.2.1 row col ' '
      let score := r.1.2
      let best' := if score > best.2 then ((col : Int), score) else best
      if score > best.2 ∧ atRoot ∧ score > 900000 then
        (best', b3, memoInsert key best' r.2.2)
      else
        let alpha' := max alpha best'.2
        if alpha' ≥ beta then (best', b3, storeOrClear key best' r.2.2)
        else maxLoop f key atRoot beta rest best' alpha' b3 r.2.2

/-- The minimizing move loop of `minimax` (lines 327–341 plus the final cache
update): symmetric to `maxLoop`, without a root cutoff. -/
def minLoop (f : Int → Board → Memo → (Int × Int) × Board × Memo) (key : String)
    (alpha : Int) :
    List Nat → Int × Int → Int → Board → Memo → (Int × Int) × Board × Memo
  | [], best, _, b, m => (best, b, storeOrClear key best m)
  | col :: rest, best, beta, b, m =>
    match getNextOpenRow b col with
    | none => minLoop f key alpha rest best beta b m
    | some row =>
      let b1 := setCell b row col 'X'
      let r := f beta b1 m
      let b3 := setCell r.2.1 row col ' '
      let score := r.1.2
      let best' := if score < best.2 then ((col : Int), score) else best
      let beta' := min beta best'.2
      if beta' ≤ alpha then (best', b3, storeOrClear key best' r.2.2)
      else minLoop f key alpha rest best' beta' b3 r.2.2

/-- One ply of `minimax` (lines 284–347 of the source), with the recursive
call abstracted as `rec`: cache lookup, terminal checks (skipped in
score-attack mode), endgame depth clamp, depth exhaustion, no-legal-moves
draw, then the maximizing/minimizing move loop. -/
def minimaxBody
    (rec : Board → Int → Int → Int → Bool → Int → Memo →
      (Int × Int) × Board × Memo)
    (b : Board) (depth alpha beta : Int)
    (maximizingPlayer isScoreAttack : Bool) (original_depth : Int)
    (memo : Memo) : (Int × Int) × Board × Memo :=
  let key := mkKey b depth maximizingPlayer
  match memoFind key memo with
  | some v => (v, b, memo)
  | none =>
    if ¬isScoreAttack ∧ checkWin b 'O' then ((-1, 1000000 + depth), b, memo)
    else if ¬isScoreAttack ∧ checkWin b 'X' then ((-1, -1000000 - depth), b, memo)
    else
      let empty_cells := countEmptyCells b
      let depth1 := if (empty_cells : Int) ≤ original_depth * 2 ∧ ¬isScoreAttack
        then (empty_cells : Int) else depth
      if depth1 = 0 then ((-1, evaluateBoard b 'O'), b, memo)
      else
        let gom := getOptimizedMoves b maximizingPlayer
        match gom.1 with
        | [] => ((-1, 0), gom.2, memo)
        | c0 :: _ =>
          if maximizingPlayer then
            maxLoop
              (fun a b' m' => rec b' (depth1 - 1) a beta false original_depth m')
              key (depth1 = original_depth) beta gom.1 ((c0 : Int), INT_MIN)
              alpha gom.2 memo
          else
            minLoop
              (fun bt b' m' => rec b' (depth1 - 1) alpha bt true original_depth m')
              key alpha gom.1 ((c0 : Int), INT_MAX) beta gom.2 memo

/-- `minimax`, fuel-indexed to make the recursion structural.  One unit of
fuel is consumed per ply; every recursive call fills one empty cell, so fuel
`43 > 42` never runs out on a 6×7 board (`minimax` below fixes it).  The
board and the cache are threaded. -/
def minimaxF : Nat → Board → Int → Int → Int → Bool → Bool → Int → Memo →
    (Int × Int) × Board × Memo
  | 0, b, _, _, _, _, _, _, memo => ((-1, 0), b, memo)
  | fuel + 1, b, depth, alpha, beta, maximizingPlayer, isScoreAttack,
      original_depth, memo =>
    minimaxBody
      (fun b' d' a' bt' mp' od' m' => minimaxF fuel b' d' a' bt' mp' isScoreAttack od' m')
      b depth alpha beta maximizingPlayer isScoreAttack original_depth memo

/-- `minimax` with the transposition cache: 43 units of fuel always suffice
(each ply fills one of the at most 42 cells). -/
def minimax (b : Board) (depth alpha beta : Int)
    (maximizingPlayer isScoreAttack : Bool) (original_depth : Int)
    (memo : Memo) : (Int × Int) × Board × Memo :=
  minimaxF 43 b depth alpha beta maximizingPlayer isScoreAttack original_depth memo

/-- The identical search with the cache disabled: no lookup ever hits and
nothing is ever stored.  The move loops are reused with an inert cache so
that the search logic is literally the same. -/
def minimaxNCF : Nat → Board → Int → Int → Int → Bool → Bool → Int → Int × Int
  | 0, _, _, _, _, _, _, _ => (-1, 0)
  | fuel + 1, b, depth, alpha, beta, maximizingPlayer, isScoreAttack,
      original_depth =>
    if ¬isScoreAttack ∧ checkWin b 'O' then (-1, 1000000 + depth)
    else if ¬isScoreAttack ∧ checkWin b 'X' then (-1, -1000000 - depth)
    else
      let empty_cells := countEmptyCells b
      let depth1 := if (empty_cells : Int) ≤ original_depth * 2 ∧ ¬isScoreAttack
        then (empty_cells : Int) else depth
      if depth1 = 0 then (-1, evaluateBoard b 'O')
      else
        let gom := getOptimizedMoves b maximizingPlayer
        match gom.1 with
        | [] => (-1, 0)
        | c0 :: _ =>
          if maximizingPlayer then
            (maxLoop
              (fun a b' m' => (minimaxNCF fuel b' (depth1 - 1) a beta false
                isScoreAttack original_depth, b', m'))
              (mkKey b depth maximizingPlayer) (depth1 = original_depth) beta
              gom.1 ((c0 : Int), INT_MIN) alpha gom.2 []).1
          else
            (minLoop
              (fun bt b' m' => (minimaxNCF fuel b' (depth1 - 1) alpha bt true
                isScoreAttack original_depth, b', m'))
              (mkKey b depth maximizingPlayer) alpha gom.1 ((c0 : Int), INT_MAX)
              beta gom.2 []).1

/-- The cache-disabled search at the same fuel as `minimax`. -/
def minimaxNC (b : Board) (depth alpha beta : Int)
    (maximizingPlayer isScoreAttack : Bool) (original_depth : Int) : Int × Int :=
  minimaxNCF 43 b depth alpha beta maximizingPlayer isScoreAttack original_depth

/-! ### Specification-side definitions, used to compare the code against the
claims of the natural-language specification. -/

/-- `evaluateWindow` with the "+5000, open at both ends" offense branch
removed (a 3-piece window with exactly one empty cell always scores 150).
The spec calls that branch arithmetically unreachable. -/
def evaluateWindowTrimmed (c1 c2 c3 c4 piece : Char) : Int :=
  let countPiece : Nat := (if c1 = piece then 1 else 0) + (if c2 = piece then 1 else 0)
    + (if c3 = piece then 1 else 0) + (if c4 = piece then 1 else 0)
  let countEmpty : Nat := (if c1 = ' ' then 1 else 0) + (if c2 = ' ' then 1 else 0)
    + (if c3 = ' ' then 1 else 0) + (if c4 = ' ' then 1 else 0)
  let countOpp : Nat := 4 - countPiece - countEmpty
  if countPiece = 4 then 1000000
  else
    let offense : Int :=
      if countPiece = 3 ∧ countEmpty = 1 then 150
      else if countPiece = 2 ∧ countEmpty = 2 then
        if (c1 = piece ∧ c2 = piece) ∨ (c2 = piece ∧ c3 = piece) ∨
           (c3 = piece ∧ c4 = piece) then 50 else 60
      else 0
    let defense : Int :=
      if countOpp = 3 ∧ countEmpty = 1 then
        if c1 = ' ' ∧ c4 = ' ' then -10000 else -500
      else if countOpp = 2 ∧ countEmpty = 2 then -50
      else 0
    offense + defense

/-- Number of `piece`-cells in column `c`. -/
def colPieceCount (b : Board) (piece : Char) (c : Nat) : Int :=
  ((List.range ROWS).map fun r => if getCell b r c = piece then (1 : Int) else 0).sum

/-- Number of rows holding `piece` in at least one of the two columns
adjacent to the centre (what the code's centre loop actually pays 100 for). -/
def adjRowCount (b : Board) (piece : Char) : Int :=
  ((List.range ROWS).map fun r =>
    if getCell b r 2 = piece ∨ getCell b r 4 = piece then (1 : Int) else 0).sum

/-- The board evaluation as the specification words it: window sum plus 200
per centre piece plus 100 per own piece in *either* adjacent column. -/
def claimedEvaluateBoard (b : Board) (piece : Char) : Int :=
  windowTotal b piece + 200 * colPieceCount b piece 3 +
    100 * (colPieceCount b piece 2 + colPieceCount b piece 4)

/-- The adaptive-depth rule as the specification words it, computed on the
entry board. -/
def specAdaptiveDepth (b : Board) (base : Int) : Int :=
  let threats := (countThreats b 'O').1 + (countThreats b 'X').1
  if threats ≥ 2 then base + 2
  else if threats = 1 then base + 1
  else if movesPlayed b < 8 then max 3 (base - 1)
  else if movesPlayed b > 30 then base + 1
  else base

/-- The non-full columns, in ascending order. -/
def legalCols (b : Board) : List Nat :=
  (List.range COLS).filter fun c => (getNextOpenRow b c).isSome

/-- The provisional score `getOptimizedMoves` assigns to a legal column:
immediate win or board evaluation after the speculative drop, plus the
centrality bonus `30 - |col - 3| * 10`, plus `40` when the cell under the
drop already holds the mover's piece. -/
def moveScore (b : Board) (maximizingPlayer : Bool) (col : Nat) : Int :=
  let piece := if maximizingPlayer then 'O' else 'X'
  match getNextOpenRow b col with
  | none => 0
  | some row =>
    let b1 := setCell b row col piece
    (if checkWin b1 piece then (1000000 : Int) else evaluateMoveSimple b1 piece)
      + (30 - (((col : Int) - 3).natAbs : Int) * 10)
      + (if row < ROWS - 1 ∧ getCell b (row + 1) col = piece then 40 else 0)

/-- Gravity: a cell directly below an occupied cell is never empty. -/
def Supported (b : Board) : Prop :=
  ∀ r c, r + 1 < ROWS → c < COLS → getCell b r c ≠ ' ' → getCell b (r + 1) c ≠ ' '

/-- Boards reachable from the blank board by speculative placements
(`dropPiece` on a non-full column) and matching undos of the cell just
placed. -/
inductive Reach : Board → Prop where
  | init : Reach initBoard
  | place {b : Board} {col row : Nat} {p : Char} : Reach b → col < COLS →
      p ≠ ' ' → getNextOpenRow b col = some row → Reach (setCell b row col p)
  | undo {b : Board} {col row : Nat} {p : Char} : Reach b → col < COLS →
      p ≠ ' ' → getNextOpenRow b col = some row →
      Reach (setCell (setCell b row col p) row col ' ')

/-! ### Concrete boards and cache states used as inputs of the witnesses and
counterexamples. -/

/-- Build a board from seven-character row strings. -/
def bOf (rs : List String) : Board := rs.map String.data

/-- A board on which `'O'` has already completed a line. -/
def bWin : Board := bOf [
  "       ",
  "       ",
  "       ",
  "       ",
  "       ",
  "OOOO   "]

/-- A fully occupied board with no completed line for either side. -/
def bFull : Board := bOf [
  "XOXOXOX",
  "XOXOXOX",
  "OXOXOXO",
  "OXOXOXO",
  "XOXOXOX",
  "XOXOXOX"]

/-- Two pieces in the two columns adjacent to the centre of one row. -/
def bAdj : Board := bOf [
  "       ",
  "       ",
  "       ",
  "       ",
  "       ",
  "  X X  "]

/-- Five pieces, no immediate threats (opening phase). -/
def b5 : Board := bOf [
  "       ",
  "       ",
  "       ",
  "       ",
  "       ",
  "XOXOX  "]

/-- Exactly one immediate one-move win (for `'O'`, at column 3). -/
def b1t : Board := bOf [
  "       ",
  "       ",
  "       ",
  "       ",
  "       ",
  "OOO    "]

/-- Two immediate one-move wins (for `'O'`, at columns 0 and 4). -/
def b2t : Board := bOf [
  "       ",
  "       ",
  "       ",
  "       ",
  "       ",
  " OOO   "]

/-- The board `b2t` after `'O'` drops on column 4: a completed line. -/
def b2tWin : Board := bOf [
  "       ",
  "       ",
  "       ",
  "       ",
  "       ",
  " OOOO  "]

/-- Thirty-two pieces, no immediate threats (endgame phase). -/
def b32 : Board := bOf [
  "       ",
  "   OXOX",
  "OXOXOXO",
  "OXOXOXO",
  "XOXOXOX",
  "XOXOXOX"]

/-- The `i`-th filler key of `bigMemo`: `i` copies of `'Z'`.  All such keys
are distinct and none is a real search key (every search key starts with a
board cell). -/
def zKey (i : Nat) : String := String.mk (List.replicate i 'Z')

/-- A cache state holding exactly `MAX_MEMORY_SIZE` entries. -/
def bigMemo : Memo := (List.range MAX_MEMORY_SIZE).map fun i => (zKey i, ((0 : Int), (0 : Int)))

/-! ### Basic board lemmas -/

theorem list_set_self {α : Type} (l : List α) (n : Nat) (a : α)
    (h : l[n]? = some a) : l.set n a = l := by
  induction l generalizing n with
  | nil => simp at h
  | cons x xs ih =>
    cases n with
    | zero => simp_all
    | succ m => simp_all

theorem list_getD_set_ne {α : Type} (l : List α) (i j : Nat) (x : α) (d : α)
    (h : i ≠ j) : (l.set i x).getD j d = l.getD j d := by
  rw [List.getD_eq_getElem?_getD, List.getElem?_set, if_neg h,
    ← List.getD_eq_getElem?_getD]

theorem list_getD_set_lt {α : Type} (l : List α) (i : Nat) (x : α) (d : α)
    (h : i < l.length) : (l.set i x).getD i d = x := by
  rw [List.getD_eq_getElem?_getD, List.getElem?_set, if_pos rfl, if_pos h]
  rfl

theorem list_set_getD_self {α : Type} (l : List α) (i : Nat) (d : α)
    (h : i < l.length) : l.set i (l.getD i d) = l := by
  apply list_set_self
  rw [List.getElem?_eq_getElem h]
  exact congrArg some (List.getD_eq_getElem l d h).symm

theorem getCell_setCell_ne {b : Board} {r c r' c' : Nat} {v : Char}
    (h : r' ≠ r ∨ c' ≠ c) : getCell (setCell b r c v) r' c' = getCell b r' c' := by
  unfold getCell setCell
  by_cases hr : r = r'
  · subst hr
    rcases h with h | h
    · exact absurd rfl h
    · by_cases hlen : r < b.length
      · rw [list_getD_set_lt _ _ _ _ hlen, list_getD_set_ne _ _ _ _ _ (Ne.symm h)]
      · rw [List.set_eq_of_length_le (le_of_not_lt hlen)]
  · rw [list_getD_set_ne _ _ _ _ _ hr]

theorem setCell_cancel {b : Board} {r c : Nat} {v : Char}
    (h : getCell b r c = ' ') : setCell (setCell b r c v) r c ' ' = b := by
  unfold setCell
  by_cases hlen : r < b.length
  · rw [list_getD_set_lt _ _ _ _ hlen, List.set_set, List.set_set]
    by_cases hc : c < (b.getD r []).length
    · have hcell : (b.getD r []).set c ' ' = b.getD r [] := by
        unfold getCell at h
        rw [← h]
        exact list_set_getD_self _ _ _ hc
      rw [hcell]
      exact list_set_getD_self _ _ _ hlen
    · rw [List.set_eq_of_length_le (le_of_not_lt hc)]
      exact list_set_getD_self _ _ _ hlen
  · have hb : b.set r ((b.getD r []).set c v) = b :=
      List.set_eq_of_length_le (le_of_not_lt hlen)
    rw [hb, List.set_eq_of_length_le (le_of_not_lt hlen)]

theorem getNextOpenRow_spec {b : Board} {col row : Nat}
    (h : getNextOpenRow b col = some row) :
    row < ROWS ∧ getCell b row col = ' ' ∧
      ∀ r', row < r' → r' < ROWS → getCell b r' col ≠ ' ' := by
  unfold getNextOpenRow at h
  split_ifs at h with h5 h4 h3 h2 h1 h0 <;>
    (injection h with h; subst h
     refine ⟨by norm_num [ROWS], by assumption, ?_⟩
     intro r' hlt hub
     unfold ROWS at hub
     interval_cases r' <;> assumption)

/-- Generic preservation of a state predicate along a fold. -/
theorem foldl_preserves {α σ : Type} (f : σ → α → σ) (P : σ → Prop)
    (h : ∀ s a, P s → P (f s a)) : ∀ (l : List α) (s : σ), P s → P (l.foldl f s) := by
  intro l
  induction l with
  | nil => intro s hs; simpa using hs
  | cons x xs ih => intro s hs; rw [List.foldl_cons]; exact ih _ (h s x hs)

theorem countThreatsStep_board (p : Char) (st : Nat × Board) (col : Nat) :
    (countThreatsStep p st col).2 = st.2 := by
  unfold countThreatsStep
  cases hg : getNextOpenRow st.2 col with
  | none => rfl
  | some row => exact setCell_cancel (getNextOpenRow_spec hg).2.1

theorem movesStep_board (p : Char) (st : List (Nat × Int) × Board) (col : Nat) :
    (movesStep p st col).2 = st.2 := by
  unfold movesStep
  cases hg : getNextOpenRow st.2 col with
  | none => rfl
  | some row => exact setCell_cancel (getNextOpenRow_spec hg).2.1

/-- `countThreats` restores the board it borrowed. -/
theorem countThreats_board (b : Board) (p : Char) : (countThreats b p).2 = b := by
  have h := foldl_preserves (countThreatsStep p) (fun st => st.2 = b)
    (fun s a hs => by
      show (countThreatsStep p s a).2 = b
      rw [countThreatsStep_board]; exact hs) (List.range COLS) (0, b) rfl
  exact h

theorem movesFold_board (b : Board) (piece : Char) :
    ((List.range COLS).foldl (movesStep piece) ([], b)).2 = b := by
  have h := foldl_preserves (movesStep piece)
    (fun (st : List (Nat × Int) × Board) => st.2 = b)
    (fun s a hs => by
      show (movesStep _ s a).2 = b
      rw [movesStep_board]; exact hs) (List.range COLS) ([], b) rfl
  exact h

/-- `getOptimizedMoves` restores the board it borrowed. -/
theorem getOptimizedMoves_board (b : Board) (mp : Bool) :
    (getOptimizedMoves b mp).2 = b := by
  simp only [getOptimizedMoves]
  exact movesFold_board b _

theorem sum_map_ite_const (l : List Nat) (P : Nat → Prop) [DecidablePred P] (k : Int) :
    (l.map fun r => if P r then k else 0).sum =
      k * (l.map fun r => if P r then (1 : Int) else 0).sum := by
  induction l with
  | nil => simp
  | cons x xs ih =>
    simp only [List.map_cons, List.sum_cons, ih, mul_add]
    by_cases h : P x <;> simp [h]

/-- C3: `evaluateWindow` computes exactly the scoring table of spec §4.2 on
game cells (`' '`, `'X'`, `'O'`) for either perspective piece: 4 own pieces
score 1,000,000; 3 own + 1 empty with not both ends empty score 150; 2 own +
2 empty score 50 when adjacent and 60 when split; opponent 3 + 1 empty with
not both ends empty score −500; opponent 2 + 2 empty score −50; and the
quoted concrete window scores hold, with split strictly above connected. -/
theorem evaluateWindow_matches_table :
    (∀ c1 ∈ ([' ', 'X', 'O'] : List Char), ∀ c2 ∈ ([' ', 'X', 'O'] : List Char),
      ∀ c3 ∈ ([' ', 'X', 'O'] : List Char), ∀ c4 ∈ ([' ', 'X', 'O'] : List Char),
      ∀ p ∈ (['X', 'O'] : List Char),
      [c1, c2, c3, c4].count p = 4 → evaluateWindow c1 c2 c3 c4 p = 1000000) ∧
    (∀ c1 ∈ ([' ', 'X', 'O'] : List Char), ∀ c2 ∈ ([' ', 'X', 'O'] : List Char),
      ∀ c3 ∈ ([' ', 'X', 'O'] : List Char), ∀ c4 ∈ ([' ', 'X', 'O'] : List Char),
      ∀ p ∈ (['X', 'O'] : List Char),
      [c1, c2, c3, c4].count p = 3 → [c1, c2, c3, c4].count ' ' = 1 →
        ¬(c1 = ' ' ∧ c4 = ' ') → evaluateWindow c1 c2 c3 c4 p = 150) ∧
    (∀ c1 ∈ ([' ', 'X', 'O'] : List Char), ∀ c2 ∈ ([' ', 'X', 'O'] : List Char),
      ∀ c3 ∈ ([' ', 'X', 'O'] : List Char), ∀ c4 ∈ ([' ', 'X', 'O'] : List Char),
      ∀ p ∈ (['X', 'O'] : List Char),
      [c1, c2, c3, c4].count p = 2 → [c1, c2, c3, c4].count ' ' = 2 →
        ((c1 = p ∧ c2 = p) ∨ (c2 = p ∧ c3 = p) ∨ (c3 = p ∧ c4 = p)) →
        evaluateWindow c1 c2 c3 c4 p = 50) ∧
    (∀ c1 ∈ ([' ', 'X', 'O'] : List Char), ∀ c2 ∈ ([' ', 'X', 'O'] : List Char),
      ∀ c3 ∈ ([' ', 'X', 'O'] : List Char), ∀ c4 ∈ ([' ', 'X', 'O'] : List Char),
      ∀ p ∈ (['X', 'O'] : List Char),
      [c1, c2, c3, c4].count p = 2 → [c1, c2, c3, c4].count ' ' = 2 →
        ¬((c1 = p ∧ c2 = p) ∨ (c2 = p ∧ c3 = p) ∨ (c3 = p ∧ c4 = p)) →
        evaluateWindow c1 c2 c3 c4 p = 60) ∧
    (∀ c1 ∈ ([' ', 'X', 'O'] : List Char), ∀ c2 ∈ ([' ', 'X', 'O'] : List Char),
      ∀ c3 ∈ ([' ', 'X', 'O'] : List Char), ∀ c4 ∈ ([' ', 'X', 'O'] : List Char),
      ∀ p ∈ (['X', 'O'] : List Char),
      [c1, c2, c3, c4].count p = 0 → [c1, c2, c3, c4].count ' ' = 1 →
        ¬(c1 = ' ' ∧ c4 = ' ') → evaluateWindow c1 c2 c3 c4 p = -500) ∧
    (∀ c1 ∈ ([' ', 'X', 'O'] : List Char), ∀ c2 ∈ ([' ', 'X', 'O'] : List Char),
      ∀ c3 ∈ ([' ', 'X', 'O'] : List Char), ∀ c4 ∈ ([' ', 'X', 'O'] : List Char),
      ∀ p ∈ (['X', 'O'] : List Char),
      [c1, c2, c3, c4].count p = 0 → [c1, c2, c3, c4].count ' ' = 2 →
        evaluateWindow c1 c2 c3 c4 p = -50) ∧
    evaluateWindow ' ' 'X' 'X' 'X' 'X' = 150 ∧
    evaluateWindow 'X' ' ' 'X' ' ' 'X' = 60 ∧
    evaluateWindow 'X' 'X' ' ' ' ' 'X' = 50 ∧
    evaluateWindow 'X' 'X' ' ' ' ' 'X' < evaluateWindow 'X' ' ' 'X' ' ' 'X' := by
  refine ⟨by decide, by decide, by decide, by decide, by decide, by decide,
    by decide, by decide, by decide, by decide⟩

/-- Witness for C3: the general table entry applied at the concrete window
`(' ','X','X','X')` from the perspective of `'X'` yields 150. -/
theorem evaluateWindow_matches_table_witness :
    evaluateWindow ' ' 'X' 'X' 'X' 'X' = 150 :=
  evaluateWindow_matches_table.2.1 ' ' (by decide) 'X' (by decide) 'X' (by decide)
    'X' (by decide) 'X' (by decide) (by decide) (by decide) (by decide)

/-- C7: the "+5000, open at both ends" branch of `evaluateWindow` is
unreachable: a window with exactly one empty cell cannot have both end cells
empty, so `evaluateWindow` agrees everywhere with the variant whose +5000
branch is removed — it never adds 5000. -/
theorem evaluateWindow_open_branch_unreachable (c1 c2 c3 c4 p : Char) :
    evaluateWindow c1 c2 c3 c4 p = evaluateWindowTrimmed c1 c2 c3 c4 p ∧
    ([c1, c2, c3, c4].count ' ' = 1 → ¬(c1 = ' ' ∧ c4 = ' ')) := by
  constructor
  · simp only [evaluateWindow, evaluateWindowTrimmed]
    by_cases hce : (if c1 = ' ' then 1 else 0) + (if c2 = ' ' then 1 else 0) +
        (if c3 = ' ' then 1 else 0) + (if c4 = ' ' then 1 else 0) = 1
    · have hno : ¬(c1 = ' ' ∧ c4 = ' ') := by
        rintro ⟨h1, h4⟩
        rw [if_pos h1, if_pos h4] at hce
        omega
      rw [if_neg hno]
    · have h1 : ¬(((if c1 = p then 1 else 0) + (if c2 = p then 1 else 0) +
          (if c3 = p then 1 else 0) + (if c4 = p then 1 else 0) = 3) ∧
          ((if c1 = ' ' then 1 else 0) + (if c2 = ' ' then 1 else 0) +
          (if c3 = ' ' then 1 else 0) + (if c4 = ' ' then 1 else 0) = 1)) :=
        fun h => hce h.2
      rw [if_neg h1, if_neg h1]
  · intro hcount
    rintro ⟨h1, h4⟩
    subst h1
    subst h4
    simp [List.count_cons] at hcount

/-- Witness for C7: at the window `(' ','X','X',' ')` the empty count is not
one (both ends are empty), instantiating the impossibility. -/
theorem evaluateWindow_open_branch_unreachable_witness :
    ¬([' ', 'X', 'X', ' '].count ' ' = 1) := fun h =>
  (evaluateWindow_open_branch_unreachable ' ' 'X' 'X' ' ' 'X').2 h ⟨rfl, rfl⟩

/-- C4 (amended): `evaluateBoard` is the sum of `evaluateWindow` over all
horizontal, vertical and both-diagonal windows, plus 200 per own piece in the
centre column, plus 100 per **row** holding an own piece in at least one of
the two columns adjacent to the centre — not 100 per adjacent-column piece:
a row occupying both adjacent columns is paid only once. -/
theorem evaluateBoard_decomposition (b : Board) (piece : Char) :
    evaluateBoard b piece = windowTotal b piece + 200 * colPieceCount b piece 3 +
      100 * adjRowCount b piece := by
  unfold evaluateBoard centerScore colPieceCount adjRowCount
  rw [List.sum_map_add,
    sum_map_ite_const _ (fun r => getCell b r (COLS / 2) = piece) 200,
    sum_map_ite_const _
      (fun r => getCell b r (COLS / 2 - 1) = piece ∨ getCell b r (COLS / 2 + 1) = piece) 100]
  simp only [show COLS / 2 = 3 from rfl, show COLS / 2 - 1 = 2 from rfl,
    show COLS / 2 + 1 = 4 from rfl]
  ring

/-- Counterexample to C4 as stated: on a board with one `'X'` in each of the
two columns adjacent to the centre of the same row, `evaluateBoard` pays the
adjacent-column bonus once (total 220), while the claimed reading — 100 per
adjacent-column piece — would pay it twice (total 320). -/
theorem evaluateBoard_adjacent_bonus_cex :
    evaluateBoard bAdj 'X' ≠ claimedEvaluateBoard bAdj 'X' := by decide

/-- C8: `getAdaptiveDepth` equals the spec's rule — base+2 for at least two
immediate one-move wins, base+1 for exactly one, otherwise max(3, base−1)
below 8 occupied cells, base+1 above 30, else base — and takes the quoted
values 3, 5, 5, 6 on the four concrete phase boards with base depth 4. -/
theorem getAdaptiveDepth_spec :
    (∀ (b : Board) (base : Int), getAdaptiveDepth b base = specAdaptiveDepth b base) ∧
    getAdaptiveDepth b5 4 = 3 ∧ getAdaptiveDepth b32 4 = 5 ∧
    getAdaptiveDepth b1t 4 = 5 ∧ getAdaptiveDepth b2t 4 = 6 := by
  refine ⟨?_, by decide, by decide, by decide, by decide⟩
  intro b base
  unfold getAdaptiveDepth specAdaptiveDepth
  simp only [countThreats_board]

/-! ### Cache lemmas -/

theorem memoFind_insert_self (k : String) (v : Int × Int) (m : Memo) :
    memoFind k (memoInsert k v m) = some v := by
  induction m with
  | nil => simp [memoInsert, memoFind]
  | cons p t ih =>
    obtain ⟨k', v'⟩ := p
    by_cases h : k' = k
    · simp [memoInsert, h, memoFind]
    · simp [memoInsert, h, memoFind, ih]

theorem memoInsert_length_le (k : String) (v : Int × Int) (m : Memo) :
    (memoInsert k v m).length ≤ m.length + 1 := by
  induction m with
  | nil => simp [memoInsert]
  | cons p t ih =>
    obtain ⟨k', v'⟩ := p
    by_cases h : k' = k
    · simp [memoInsert, h]
    · simp only [memoInsert, if_neg h, List.length_cons]
      omega

theorem memoInsert_fresh_length (k : String) (v : Int × Int) (m : Memo)
    (h : memoFind k m = none) : (memoInsert k v m).length = m.length + 1 := by
  induction m with
  | nil => simp [memoInsert]
  | cons p t ih =>
    obtain ⟨k', v'⟩ := p
    by_cases hk : k' = k
    · simp [memoFind, hk] at h
    · simp only [memoFind, if_neg hk] at h
      simp only [memoInsert, if_neg hk, List.length_cons, ih h]

theorem storeOrClear_length (k : String) (v : Int × Int) (m : Memo) :
    (storeOrClear k v m).length ≤ MAX_MEMORY_SIZE := by
  unfold storeOrClear
  split_ifs with hlt
  · have := memoInsert_length_le k v m
    omega
  · simp [MAX_MEMORY_SIZE]

theorem memoFind_eq_none (k : String) (m : Memo)
    (h : ∀ p ∈ m, p.1 ≠ k) : memoFind k m = none := by
  induction m with
  | nil => rfl
  | cons p t ih =>
    obtain ⟨k', v'⟩ := p
    have hne : k' ≠ k := h (k', v') (List.mem_cons_self _ _)
    simp only [memoFind, if_neg hne]
    exact ih fun q hq => h q (List.mem_cons_of_mem _ hq)

/-! ### Frame lemmas: the search restores the board on every exit path -/

theorem maxLoop_board (f : Int → Board → Memo → (Int × Int) × Board × Memo)
    (key : String) (atRoot : Bool) (beta : Int)
    (hf : ∀ a b' m', (f a b' m').2.1 = b') :
    ∀ (cols : List Nat) (best : Int × Int) (alpha : Int) (b : Board) (m : Memo),
    (maxLoop f key atRoot beta cols best alpha b m).2.1 = b := by
  intro cols
  induction cols with
  | nil => intro best alpha b m; rfl
  | cons col rest ih =>
    intro best alpha b m
    simp only [maxLoop]
    cases hg : getNextOpenRow b col with
    | none => exact ih best alpha b m
    | some row =>
      simp only
      have hb3 : setCell (f alpha (setCell b row col 'O') m).2.1 row col ' ' = b := by
        rw [hf]
        exact setCell_cancel (getNextOpenRow_spec hg).2.1
      split_ifs <;>
        first
          | exact hb3
          | (rw [hb3]; exact ih _ _ b _)

theorem minLoop_board (f : Int → Board → Memo → (Int × Int) × Board × Memo)
    (key : String) (alpha : Int)
    (hf : ∀ a b' m', (f a b' m').2.1 = b') :
    ∀ (cols : List Nat) (best : Int × Int) (beta : Int) (b : Board) (m : Memo),
    (minLoop f key alpha cols best beta b m).2.1 = b := by
  intro cols
  induction cols with
  | nil => intro best beta b m; rfl
  | cons col rest ih =>
    intro best beta b m
    simp only [minLoop]
    cases hg : getNextOpenRow b col with
    | none => exact ih best beta b m
    | some row =>
      simp only
      have hb3 : setCell (f beta (setCell b row col 'X') m).2.1 row col ' ' = b := by
        rw [hf]
        exact setCell_cancel (getNextOpenRow_spec hg).2.1
      split_ifs <;>
        first
          | exact hb3
          | (rw [hb3]; exact ih _ _ b _)

theorem minimaxBody_board
    (rec : Board → Int → Int → Int → Bool → Int → Memo → (Int × Int) × Board × Memo)
    (hrec : ∀ b' d a β mp od m, (rec b' d a β mp od m).2.1 = b')
    (b : Board) (depth alpha beta : Int) (mp sa : Bool) (od : Int) (M : Memo) :
    (minimaxBody rec b depth alpha beta mp sa od M).2.1 = b := by
  unfold minimaxBody
  dsimp only
  cases hm : memoFind (mkKey b depth mp) M with
  | some v => rfl
  | none =>
    simp only
    by_cases h1 : (¬sa = true ∧ checkWin b 'O' = true)
    · rw [if_pos h1]
    · rw [if_neg h1]
      by_cases h2 : (¬sa = true ∧ checkWin b 'X' = true)
      · rw [if_pos h2]
      · rw [if_neg h2]
        generalize (if ((countEmptyCells b : Int) ≤ od * 2 ∧ ¬sa = true)
          then ((countEmptyCells b : Int)) else depth) = d1
        by_cases hd : d1 = 0
        · rw [if_pos hd]
        · rw [if_neg hd]
          cases hgl : (getOptimizedMoves b mp).1 with
          | nil =>
            simp only [hgl]
            exact getOptimizedMoves_board b mp
          | cons c0 cs =>
            simp only [hgl]
            by_cases hmp : (mp = true)
            · rw [if_pos hmp]
              rw [maxLoop_board _ _ _ _ (fun a b' m' => hrec b' _ a beta false od m')]
              exact getOptimizedMoves_board b mp
            · rw [if_neg hmp]
              rw [minLoop_board _ _ _ (fun a b' m' => hrec b' _ alpha a true od m')]
              exact getOptimizedMoves_board b mp

/-- `minimax` leaves the board exactly as it found it, for every fuel, every
input and every exit path. -/
theorem minimaxF_board (fuel : Nat) :
    ∀ (b : Board) (depth alpha beta : Int) (mp sa : Bool) (od : Int) (M : Memo),
    (minimaxF fuel b depth alpha beta mp sa od M).2.1 = b := by
  induction fuel with
  | zero => intro b d a β mp sa od M; rfl
  | succ fuel ih =>
    intro b d a β mp sa od M
    show (minimaxBody _ b d a β mp sa od M).2.1 = b
    exact minimaxBody_board _ (fun b' d' a' β' mp' od' m' => ih b' d' a' β' mp' sa od' m')
      b d a β mp sa od M

/-! ### Key lemmas: when a node's key ends up in the cache, it is mapped to
the pair the node returned -/

theorem memoFind_storeOrClear {k : String} {v w : Int × Int} {m : Memo}
    (h : memoFind k (storeOrClear k w m) = some v) : v = w := by
  unfold storeOrClear at h
  split_ifs at h with hlt
  · rw [memoFind_insert_self] at h
    exact (Option.some.inj h).symm
  · simp [memoFind] at h

theorem maxLoop_key (f : Int → Board → Memo → (Int × Int) × Board × Memo)
    (key : String) (atRoot : Bool) (beta : Int) :
    ∀ (cols : List Nat) (best : Int × Int) (alpha : Int) (b : Board) (m : Memo)
      (v : Int × Int),
    memoFind key (maxLoop f key atRoot beta cols best alpha b m).2.2 = some v →
    v = (maxLoop f key atRoot beta cols best alpha b m).1 := by
  intro cols
  induction cols with
  | nil =>
    intro best alpha b m v h
    simp only [maxLoop] at h ⊢
    exact memoFind_storeOrClear h
  | cons col rest ih =>
    intro best alpha b m v h
    simp only [maxLoop] at h ⊢
    cases hg : getNextOpenRow b col with
    | none =>
      rw [hg] at h
      exact ih _ _ _ _ _ h
    | some row =>
      rw [hg] at h
      dsimp only at h ⊢
      split_ifs at h ⊢ with hc1 hc2 <;>
        first
          | (rw [memoFind_insert_self] at h
             exact (Option.some.inj h).symm)
          | exact memoFind_storeOrClear h
          | exact ih _ _ _ _ _ h

theorem minLoop_key (f : Int → Board → Memo → (Int × Int) × Board × Memo)
    (key : String) (alpha : Int) :
    ∀ (cols : List Nat) (best : Int × Int) (beta : Int) (b : Board) (m : Memo)
      (v : Int × Int),
    memoFind key (minLoop f key alpha cols best beta b m).2.2 = some v →
    v = (minLoop f key alpha cols best beta b m).1 := by
  intro cols
  induction cols with
  | nil =>
    intro best beta b m v h
    simp only [minLoop] at h ⊢
    exact memoFind_storeOrClear h
  | cons col rest ih =>
    intro best beta b m v h
    simp only [minLoop] at h ⊢
    cases hg : getNextOpenRow b col with
    | none =>
      rw [hg] at h
      exact ih _ _ _ _ _ h
    | some row =>
      rw [hg] at h
      dsimp only at h ⊢
      split_ifs at h ⊢ with hc1 <;>
        first
          | exact memoFind_storeOrClear h
          | exact ih _ _ _ _ _ h

theorem minimaxBody_key
    (rec : Board → Int → Int → Int → Bool → Int → Memo → (Int × Int) × Board × Memo)
    (b : Board) (depth alpha beta : Int) (mp sa : Bool) (od : Int) (M : Memo)
    (v : Int × Int)
    (h : memoFind (mkKey b depth mp)
      (minimaxBody rec b depth alpha beta mp sa od M).2.2 = some v) :
    v = (minimaxBody rec b depth alpha beta mp sa od M).1 := by
  unfold minimaxBody at h ⊢
  dsimp only at h ⊢
  cases hm : memoFind (mkKey b depth mp) M with
  | some w =>
    rw [hm] at h
    dsimp only at h ⊢
    rw [hm] at h
    exact (Option.some.inj h).symm
  | none =>
    rw [hm] at h
    dsimp only at h ⊢
    by_cases h1 : (¬sa = true ∧ checkWin b 'O' = true)
    · rw [if_pos h1] at h ⊢
      dsimp only at h
      rw [hm] at h
      exact absurd h (by simp)
    · rw [if_neg h1] at h ⊢
      by_cases h2 : (¬sa = true ∧ checkWin b 'X' = true)
      · rw [if_pos h2] at h ⊢
        dsimp only at h
        rw [hm] at h
        exact absurd h (by simp)
      · rw [if_neg h2] at h ⊢
        generalize (if ((countEmptyCells b : Int) ≤ od * 2 ∧ ¬sa = true)
          then ((countEmptyCells b : Int)) else depth) = d1 at h ⊢
        by_cases hd : d1 = 0
        · rw [if_pos hd] at h ⊢
          dsimp only at h
          rw [hm] at h
          exact absurd h (by simp)
        · rw [if_neg hd] at h ⊢
          cases hgl : (getOptimizedMoves b mp).1 with
          | nil =>
            simp only [hgl] at h ⊢
            rw [hm] at h
            exact absurd h (by simp)
          | cons c0 cs =>
            simp only [hgl] at h ⊢
            by_cases hmp : (mp = true)
            · rw [if_pos hmp] at h ⊢
              exact maxLoop_key _ _ _ _ _ _ _ _ _ _ h
            · rw [if_neg hmp] at h ⊢
              exact minLoop_key _ _ _ _ _ _ _ _ _ h

theorem minimaxF_key (fuel : Nat) (b : Board) (depth alpha beta : Int)
    (mp sa : Bool) (od : Int) (M : Memo) (v : Int × Int)
    (h : memoFind (mkKey b depth mp)
      (minimaxF (fuel + 1) b depth alpha beta mp sa od M).2.2 = some v) :
    v = (minimaxF (fuel + 1) b depth alpha beta mp sa od M).1 := by
  have hb : minimaxF (fuel + 1) b depth alpha beta mp sa od M =
      minimaxBody
        (fun b' d' a' bt' mp' od' m' => minimaxF fuel b' d' a' bt' mp' sa od' m')
        b depth alpha beta mp sa od M := rfl
  rw [hb] at h ⊢
  exact minimaxBody_key _ _ _ _ _ _ _ _ _ _ h

/-! ### Claim theorems about the search -/

/-- C10: the search leaves the board unchanged — `minimaxF` at every fuel
(hence `minimax`), `getOptimizedMoves` and `countThreats` all return, through
every exit path (cache hit, terminal return, depth exhaustion, draw branch,
pruning break and root cutoff included), a board equal to the one they were
given. -/
theorem minimax_frame :
    (∀ (fuel : Nat) (b : Board) (depth alpha beta : Int) (mp sa : Bool)
      (od : Int) (M : Memo),
      (minimaxF fuel b depth alpha beta mp sa od M).2.1 = b) ∧
    (∀ (b : Board) (depth alpha beta : Int) (mp sa : Bool) (od : Int) (M : Memo),
      (minimax b depth alpha beta mp sa od M).2.1 = b) ∧
    (∀ (b : Board) (mp : Bool), (getOptimizedMoves b mp).2 = b) ∧
    (∀ (b : Board) (p : Char), (countThreats b p).2 = b) :=
  ⟨minimaxF_board,
    fun b d a β mp sa od M => minimaxF_board 43 b d a β mp sa od M,
    getOptimizedMoves_board, countThreats_board⟩

/-- C1 (amended): determinism holds exactly at the cache-key granularity.
The key records only (board, remaining depth, side-to-move); whenever a call
has left its key in the cache, any later call with the same board, depth and
side returns that same (column, score) pair — even if its alpha, beta, mode
or original depth differ, because the hit short-circuits everything else.
(The claim as stated is false: serving a hit whose cached value was computed
under a different mode/window makes the cached search differ from the
cache-disabled search; see the counterexample.) -/
theorem cached_call_determinism (fuel1 fuel2 : Nat) (b : Board)
    (d alpha beta alpha' beta' : Int) (mp sa sa' : Bool) (od od' : Int)
    (M : Memo) (v : Int × Int)
    (h : memoFind (mkKey b d mp)
      (minimaxF (fuel1 + 1) b d alpha beta mp sa od M).2.2 = some v) :
    (minimaxF (fuel2 + 1) b d alpha' beta' mp sa' od'
        ((minimaxF (fuel1 + 1) b d alpha beta mp sa od M).2.2)).1 =
      (minimaxF (fuel1 + 1) b d alpha beta mp sa od M).1 := by
  have h2 : (minimaxF (fuel2 + 1) b d alpha' beta' mp sa' od'
      ((minimaxF (fuel1 + 1) b d alpha beta mp sa od M).2.2)).1 = v := by
    show (minimaxBody _ b d alpha' beta' mp sa' od' _).1 = v
    unfold minimaxBody
    dsimp only
    rw [h]
  rw [h2]
  exact minimaxF_key fuel1 b d alpha beta mp sa od M v h

/-- Witness for C1 (amended): on the board where `'O'` has already connected
four, a score-attack call at depth 1 stores its key; the repeated identical
call returns the same pair. -/
theorem cached_call_determinism_witness :
    (minimaxF (42 + 1) bWin 1 INT_MIN INT_MAX true true 1
        ((minimaxF (42 + 1) bWin 1 INT_MIN INT_MAX true true 1 []).2.2)).1 =
      (minimaxF (42 + 1) bWin 1 INT_MIN INT_MAX true true 1 []).1 :=
  cached_call_determinism 42 42 bWin 1 INT_MIN INT_MAX INT_MIN INT_MAX
    true true true 1 1 [] (3, 1000800) (by decide)

/-- Counterexample to C1 as stated: the cache key omits the game mode, so
after a score-attack call at (bWin, depth 1, maximizing) has populated the
cache, the classic-mode call with the same arguments is served the
score-attack pair (3, 1000800), while the identical classic-mode search with
the cache disabled returns (−1, 1000001). -/
theorem cache_mode_pollution_cex :
    (minimax bWin 1 INT_MIN INT_MAX true false 1
        ((minimax bWin 1 INT_MIN INT_MAX true true 1 []).2.2)).1 ≠
      minimaxNC bWin 1 INT_MIN INT_MAX true false 1 := by decide

/-- C2 (amended): in classic mode on a fully occupied board with no
completed line, the endgame clamp (`empty_cells ≤ original_depth * 2` holds
with 0 empty cells whenever the original depth is ≥ 0) zeroes the remaining
depth first, so `minimax` answers through the depth-exhaustion branch with
`(−1, evaluateBoard(b,'O'))` — not through the no-legal-moves branch with
score 0 — for every remaining depth, alpha, beta and side-to-move, on any
cache state in which the position misses. -/
theorem minimax_full_board_classic (fuel : Nat) (b : Board) (d alpha beta : Int)
    (mp : Bool) (od : Int) (M : Memo)
    (hfull : countEmptyCells b = 0)
    (hO : checkWin b 'O' = false) (hX : checkWin b 'X' = false)
    (hod : 0 ≤ od)
    (hmiss : memoFind (mkKey b d mp) M = none) :
    minimaxF (fuel + 1) b d alpha beta mp false od M =
      ((-1, evaluateBoard b 'O'), b, M) := by
  show minimaxBody _ b d alpha beta mp false od M = _
  unfold minimaxBody
  dsimp only
  rw [hmiss]
  rw [hO, hX, hfull]
  have h1 : ¬(¬false = true ∧ false = true) := by simp
  rw [if_neg h1, if_neg h1]
  have hc : (((0 : Nat) : Int) ≤ od * 2 ∧ ¬false = true) := by
    constructor
    · simp only [Nat.cast_zero]
      omega
    · simp
  rw [if_pos hc]
  rw [if_pos (by simp : ((0 : Nat) : Int) = 0)]

/-- Witness for C2 (amended): on the concrete full drawn board `bFull`, the
classic-mode call at depth 1 returns `(−1, evaluateBoard bFull 'O')`. -/
theorem minimax_full_board_classic_witness :
    minimaxF (42 + 1) bFull 1 INT_MIN INT_MAX true false 1 [] =
      ((-1, evaluateBoard bFull 'O'), bFull, []) :=
  minimax_full_board_classic 42 bFull 1 INT_MIN INT_MAX true 1 []
    (by decide) (by decide) (by decide) (by decide) (by decide)

/-- Counterexample to C2 as stated: on the full drawn board `bFull` in
classic mode, `minimax` returns score `evaluateBoard bFull 'O' = 1000`, not
the draw value 0. -/
theorem minimax_full_board_zero_cex :
    (minimax bFull 1 INT_MIN INT_MAX true false 1 []).1.2 ≠ 0 := by decide

/-! ### Gravity -/

theorem supported_initBoard : Supported initBoard := by
  intro r c hr hc hocc
  unfold ROWS at hr
  unfold COLS at hc
  have hr6 : r < 6 := by omega
  have hcell : getCell initBoard r c = ' ' := by
    interval_cases r <;> interval_cases c <;> decide
  exact absurd hcell hocc

theorem supported_place {b : Board} {col row : Nat} {p : Char}
    (hs : Supported b) (hg : getNextOpenRow b col = some row) :
    Supported (setCell b row col p) := by
  obtain ⟨hrow6, hempty, habove⟩ := getNextOpenRow_spec hg
  intro r c hr hc hocc
  by_cases hrc : r = row ∧ c = col
  · obtain ⟨hr1, hc1⟩ := hrc
    subst hr1; subst hc1
    rw [getCell_setCell_ne (Or.inl (by omega))]
    exact habove (r + 1) (by omega) (by unfold ROWS at hr ⊢; omega)
  · have hcell : getCell b r c ≠ ' ' := by
      rw [getCell_setCell_ne ?_] at hocc
      · exact hocc
      · rcases Decidable.em (r = row) with h | h
        · exact Or.inr fun hco => hrc ⟨h, hco⟩
        · exact Or.inl h
    by_cases hbelow : r + 1 = row ∧ c = col
    · exfalso
      obtain ⟨hb1, hb2⟩ := hbelow
      have := hs r c hr hc hcell
      rw [hb1, hb2] at this
      exact this hempty
    · rw [getCell_setCell_ne ?_]
      · exact hs r c hr hc hcell
      · rcases Decidable.em (r + 1 = row) with h | h
        · exact Or.inr fun hco => hbelow ⟨h, hco⟩
        · exact Or.inl h

/-- C9: gravity invariant — every board reachable from the blank board by
`dropPiece`-style placements and matching undos of the just-placed cell
keeps every cell below an occupied cell occupied (no floating pieces;
equivalently, an empty cell has only empty cells above it). -/
theorem reach_supported : ∀ (b : Board), Reach b → Supported b := by
  intro b h
  induction h with
  | init => exact supported_initBoard
  | place hb hcol hp hg ih => exact supported_place ih hg
  | undo hb hcol hp hg ih =>
    rw [setCell_cancel (getNextOpenRow_spec hg).2.1]
    exact ih

/-- Witness for C9: dropping one piece on the blank board reaches a
supported position. -/
theorem reach_supported_witness : Supported (setCell initBoard 5 3 'X') :=
  reach_supported _ (Reach.place Reach.init (by decide) (by decide) (by decide))

/-! ### Move ordering -/

theorem movesFold_spec (b : Board) (mp : Bool) :
    ∀ (l : List Nat) (acc : List (Nat × Int)),
    l.foldl (movesStep (if mp then 'O' else 'X')) (acc, b) =
      (acc ++ (l.filter fun c => (getNextOpenRow b c).isSome).map
        (fun c => (c, moveScore b mp c)), b) := by
  intro l
  induction l with
  | nil => intro acc; simp
  | cons c l' ih =>
    intro acc
    rw [List.foldl_cons]
    cases hg : getNextOpenRow b c with
    | none =>
      have hstep : movesStep (if mp then 'O' else 'X') (acc, b) c = (acc, b) := by
        unfold movesStep
        dsimp only
        rw [hg]
      rw [hstep, ih, List.filter_cons]
      simp [hg]
    | some row =>
      have hempty := (getNextOpenRow_spec hg).2.1
      have hstep : movesStep (if mp then 'O' else 'X') (acc, b) c =
          (acc ++ [(c, moveScore b mp c)], b) := by
        unfold movesStep moveScore
        dsimp only
        rw [hg]
        dsimp only
        rw [setCell_cancel hempty]
      rw [hstep, ih, List.filter_cons]
      simp [hg]

theorem mem_insertMove {x z : Nat × Int} :
    ∀ {l : List (Nat × Int)}, z ∈ insertMove x l ↔ z = x ∨ z ∈ l := by
  intro l
  induction l with
  | nil => simp [insertMove]
  | cons y ys ih =>
    unfold insertMove
    split_ifs with h
    · constructor
      · intro hz
        rcases List.mem_cons.1 hz with h1 | h1
        · exact Or.inl h1
        · exact Or.inr h1
      · intro hz
        rcases hz with h1 | h1
        · exact List.mem_cons.2 (Or.inl h1)
        · exact List.mem_cons.2 (Or.inr h1)
    · rw [List.mem_cons, ih]
      constructor
      · rintro (h1 | h1 | h1)
        · exact Or.inr (List.mem_cons.2 (Or.inl h1))
        · exact Or.inl h1
        · exact Or.inr (List.mem_cons.2 (Or.inr h1))
      · rintro (h1 | h1)
        · exact Or.inr (Or.inl h1)
        · rcases List.mem_cons.1 h1 with h2 | h2
          · exact Or.inl h2
          · exact Or.inr (Or.inr h2)

theorem insertMove_perm (x : Nat × Int) :
    ∀ (l : List (Nat × Int)), (insertMove x l).Perm (x :: l) := by
  intro l
  induction l with
  | nil => simp [insertMove]
  | cons y ys ih =>
    unfold insertMove
    split_ifs with h
    · exact List.Perm.refl _
    · exact (List.Perm.cons y ih).trans (List.Perm.swap x y ys)

/-- The strict lexicographic order (score descending, then column
ascending) that characterises the sorted move list. -/
def MoveLe (x y : Nat × Int) : Prop := x.2 > y.2 ∨ (x.2 = y.2 ∧ x.1 < y.1)

theorem insertMove_pairwise (x : Nat × Int) :
    ∀ {l : List (Nat × Int)}, List.Pairwise MoveLe l →
    (∀ y ∈ l, y.1 < x.1) → List.Pairwise MoveLe (insertMove x l) := by
  intro l
  induction l with
  | nil => intro _ _; simp [insertMove]
  | cons y ys ih =>
    intro hp hlt
    unfold insertMove
    split_ifs with h
    · refine List.Pairwise.cons ?_ hp
      intro z hz
      rcases List.mem_cons.1 hz with h1 | h1
      · subst h1
        exact Or.inl h
      · rcases List.rel_of_pairwise_cons hp h1 with h2 | h2
        · exact Or.inl (by omega)
        · exact Or.inl (by omega)
    · refine List.Pairwise.cons ?_ (ih (List.Pairwise.of_cons hp)
        fun z hz => hlt z (List.mem_cons.2 (Or.inr hz)))
      intro z hz
      rcases mem_insertMove.1 hz with h1 | h1
      · rw [h1]
        rcases lt_trichotomy x.2 y.2 with h2 | h2 | h2
        · exact Or.inl h2
        · exact Or.inr ⟨h2.symm, hlt y (List.mem_cons.2 (Or.inl rfl))⟩
        · exact absurd h2 h
      · exact List.rel_of_pairwise_cons hp h1

theorem sortMoves_perm (l : List (Nat × Int)) : (sortMoves l).Perm l := by
  have H : ∀ (l : List (Nat × Int)) (acc : List (Nat × Int)),
      (l.foldl (fun acc x => insertMove x acc) acc).Perm (acc ++ l) := by
    intro l
    induction l with
    | nil => intro acc; simp
    | cons x xs ih =>
      intro acc
      rw [List.foldl_cons]
      refine (ih (insertMove x acc)).trans ?_
      refine (List.Perm.append_right xs (insertMove_perm x acc)).trans ?_
      exact List.perm_middle.symm
  simpa using H l []

theorem sortMoves_pairwise :
    ∀ (l : List (Nat × Int)) (acc : List (Nat × Int)),
    List.Pairwise MoveLe acc →
    (∀ y ∈ acc, ∀ x ∈ l, y.1 < x.1) →
    List.Pairwise (fun a b : Nat × Int => a.1 < b.1) l →
    List.Pairwise MoveLe (l.foldl (fun acc x => insertMove x acc) acc) := by
  intro l
  induction l with
  | nil => intro acc hacc _ _; simpa using hacc
  | cons x xs ih =>
    intro acc hacc hcross hl
    rw [List.foldl_cons]
    refine ih (insertMove x acc)
      (insertMove_pairwise x hacc fun y hy => hcross y hy x (List.mem_cons.2 (Or.inl rfl)))
      ?_ (List.Pairwise.of_cons hl)
    intro y hy z hz
    rcases mem_insertMove.1 hy with h1 | h1
    · subst h1
      exact List.rel_of_pairwise_cons hl hz
    · exact hcross y h1 z (List.mem_cons.2 (Or.inr hz))

/-! ### The cache ceiling -/

theorem minimax_def (b : Board) (d a β : Int) (mp sa : Bool) (od : Int) (M : Memo) :
    minimax b d a β mp sa od M = minimaxF 43 b d a β mp sa od M := rfl

theorem zKey_ne_of_head {s : String} (i : Nat) (h : s.data.head? = some ' ') :
    zKey i ≠ s := by
  intro he
  rw [← he] at h
  cases i with
  | zero => exact absurd h (by decide)
  | succ j =>
    have hz : (zKey (j + 1)).data.head? = some 'Z' := rfl
    rw [hz] at h
    exact absurd (Option.some.inj h) (by decide)

theorem bigMemo_fresh {k : String} (h : k.data.head? = some ' ') :
    memoFind k bigMemo = none := by
  refine memoFind_eq_none _ _ ?_
  intro p hp
  obtain ⟨i, hi, hip⟩ := List.mem_map.1 hp
  rw [← hip]
  exact zKey_ne_of_head i h

theorem bigMemo_length : bigMemo.length = MAX_MEMORY_SIZE := by
  simp [bigMemo]

theorem minimaxF_terminal_O (fuel : Nat) (b : Board) (d alpha beta : Int)
    (mp : Bool) (od : Int) (M : Memo)
    (hmiss : memoFind (mkKey b d mp) M = none) (hO : checkWin b 'O' = true) :
    minimaxF (fuel + 1) b d alpha beta mp false od M = ((-1, 1000000 + d), b, M) := by
  show minimaxBody _ b d alpha beta mp false od M = _
  unfold minimaxBody
  dsimp only
  rw [hmiss]
  rw [if_pos (show ¬false = true ∧ checkWin b 'O' = true from ⟨by simp, hO⟩)]

/-- On the board `b2t` (classic mode, depth 1 = original depth, maximizing),
the first ordered move is the immediate win at column 4, so the root-level
forced-win cutoff fires and stores into the cache *without* the ceiling
check, whatever cache state `M` the call started from. -/
theorem cutoff_store_unguarded (M : Memo)
    (h1 : memoFind (mkKey b2t 1 true) M = none)
    (h2 : memoFind (mkKey b2tWin 0 false) M = none) :
    minimaxF (42 + 1) b2t 1 INT_MIN INT_MAX true false 1 M =
      ((4, 1000000), b2t, memoInsert (mkKey b2t 1 true) ((4 : Int), 1000000) M) := by
  have hchild : minimaxF 42 b2tWin 0 INT_MIN INT_MAX false false 1 M =
      ((-1, 1000000 + 0), b2tWin, M) :=
    minimaxF_terminal_O 41 b2tWin 0 INT_MIN INT_MAX false 1 M h2 (by decide)
  show minimaxBody _ b2t 1 INT_MIN INT_MAX true false 1 M = _
  unfold minimaxBody
  dsimp only
  rw [h1]
  rw [(by decide : checkWin b2t 'O' = false), (by decide : checkWin b2t 'X' = false)]
  rw [if_neg (by simp : ¬(¬false = true ∧ false = true)),
    if_neg (by simp : ¬(¬false = true ∧ false = true))]
  rw [(by decide : countEmptyCells b2t = 39)]
  rw [if_neg (by norm_num : ¬(((39 : Nat) : Int) ≤ 1 * 2 ∧ ¬false = true))]
  rw [if_neg (by norm_num : ¬((1 : Int) = 0))]
  rw [(by decide : getOptimizedMoves b2t true = ([4, 0, 3, 2, 5, 1, 6], b2t))]
  dsimp only
  rw [if_pos rfl]
  rw [(show ([4, 0, 3, 2, 5, 1, 6] : List Nat) = 4 :: [0, 3, 2, 5, 1, 6] from rfl)]
  generalize ([0, 3, 2, 5, 1, 6] : List Nat) = rest
  simp only [maxLoop]
  rw [(by decide : getNextOpenRow b2t 4 = some 5)]
  dsimp only
  rw [(by decide : setCell b2t 5 4 'O' = b2tWin)]
  rw [(by norm_num : (1 : Int) - 1 = 0)]
  rw [hchild]
  dsimp only
  rw [(by decide : setCell b2tWin 5 4 ' ' = b2t)]
  norm_num [INT_MIN, INT_MAX]

/-- C5 (amended): only the post-loop store of lines 343–344 is guarded by
the ceiling — it inserts when the entry count is strictly below
`MAX_MEMORY_SIZE` and otherwise discards the entire cache, so it keeps the
count at or below the ceiling.  The root-level forced-win cutoff of lines
318–321 stores with no ceiling check at all, so the count can exceed the
ceiling (see the counterexample, which reaches `MAX_MEMORY_SIZE + 1`). -/
theorem memo_store_guarded (k : String) (v : Int × Int) (m : Memo) :
    (¬m.length < MAX_MEMORY_SIZE → storeOrClear k v m = []) ∧
    (storeOrClear k v m).length ≤ MAX_MEMORY_SIZE := by
  constructor
  · intro h
    unfold storeOrClear
    rw [if_neg h]
  · exact storeOrClear_length k v m

/-- Witness for C5 (amended): the guarded store discards the ceiling-size
cache entirely, and keeps an empty cache below the ceiling. -/
theorem memo_store_guarded_witness :
    storeOrClear (zKey 0) ((0 : Int), (0 : Int)) bigMemo = [] ∧
    (storeOrClear (zKey 0) ((0 : Int), (0 : Int)) []).length ≤ MAX_MEMORY_SIZE :=
  ⟨(memo_store_guarded _ _ bigMemo).1 (by rw [bigMemo_length]; omega),
    (memo_store_guarded _ _ []).2⟩

/-- Counterexample to C5 as stated: from a cache holding exactly
`MAX_MEMORY_SIZE` entries (so within the claimed invariant), the classic
depth-1 call on `b2t` takes the root forced-win cutoff, whose insertion is
not guarded by the ceiling: the cache afterwards holds
`MAX_MEMORY_SIZE + 1` entries. -/
theorem memo_ceiling_exceeded_cex :
    bigMemo.length ≤ MAX_MEMORY_SIZE ∧
    MAX_MEMORY_SIZE <
      ((minimax b2t 1 INT_MIN INT_MAX true false 1 bigMemo).2.2).length := by
  have hfr : memoFind (mkKey b2t 1 true) bigMemo = none := bigMemo_fresh (by decide)
  have hfc : memoFind (mkKey b2tWin 0 false) bigMemo = none := bigMemo_fresh (by decide)
  have hrun : minimaxF (42 + 1) b2t 1 INT_MIN INT_MAX true false 1 bigMemo =
      ((4, 1000000), b2t, memoInsert (mkKey b2t 1 true) ((4 : Int), 1000000) bigMemo) :=
    cutoff_store_unguarded bigMemo hfr hfc
  rw [(by norm_num : (42 : Nat) + 1 = 43)] at hrun
  constructor
  · exact Nat.le_of_eq bigMemo_length
  · rw [minimax_def, hrun]
    dsimp only
    rw [memoInsert_fresh_length _ _ _ hfr, bigMemo_length]
    omega

/-- C6: `getOptimizedMoves` returns exactly the non-full columns, ordered by
strictly descending provisional score (`moveScore`: immediate win 1,000,000
or board evaluation after the drop, plus the centrality bonus
`30 − |col − 3|·10` and the +40 stacking bonus), with equal scores kept in
their original ascending column order. -/
theorem getOptimizedMoves_ordering (b : Board) (mp : Bool) :
    ((getOptimizedMoves b mp).1).Perm (legalCols b) ∧
    List.Pairwise
      (fun c c' => moveScore b mp c > moveScore b mp c' ∨
        (moveScore b mp c = moveScore b mp c' ∧ c < c'))
      (getOptimizedMoves b mp).1 := by
  have hfold := movesFold_spec b mp (List.range COLS) []
  have hval : (getOptimizedMoves b mp).1 =
      (sortMoves ((legalCols b).map fun c => (c, moveScore b mp c))).map Prod.fst := by
    unfold getOptimizedMoves legalCols
    dsimp only
    rw [hfold]
    simp
  have hpairsperm : (sortMoves ((legalCols b).map fun c => (c, moveScore b mp c))).Perm
      ((legalCols b).map fun c => (c, moveScore b mp c)) := sortMoves_perm _
  constructor
  · rw [hval]
    refine (hpairsperm.map Prod.fst).trans ?_
    rw [List.map_map]
    have : (Prod.fst ∘ fun c => ((c, moveScore b mp c) : Nat × Int)) = id := rfl
    rw [this, List.map_id]
  · rw [hval]
    rw [List.pairwise_map]
    have hsorted : List.Pairwise MoveLe
        (sortMoves ((legalCols b).map fun c => (c, moveScore b mp c))) := by
      unfold sortMoves
      refine sortMoves_pairwise _ [] List.Pairwise.nil (by simp) ?_
      rw [List.pairwise_map]
      refine List.Pairwise.imp ?_ (List.Pairwise.filter _ (List.pairwise_lt_range COLS))
      intro a b hab
      exact hab
    have hmem : ∀ y ∈ sortMoves ((legalCols b).map fun c => (c, moveScore b mp c)),
        y.2 = moveScore b mp y.1 := by
      intro y hy
      have : y ∈ ((legalCols b).map fun c => (c, moveScore b mp c)) :=
        hpairsperm.mem_iff.1 hy
      obtain ⟨c, _, hc⟩ := List.mem_map.1 this
      rw [← hc]
    refine List.Pairwise.imp_of_mem ?_ hsorted
    intro a b ha hb hab
    rcases hab with h1 | h1
    · rw [hmem a ha, hmem b hb] at h1
      exact Or.inl h1
    · rw [hmem a ha, hmem b hb] at h1
      exact Or.inr h1

end Connect4
